import Mathlib

/-!
A shallow embedding of `simpleubjson/encoder.py` (class `UBJSONEncoder`),
together with theorems checking the natural-language specification of the
encoder against this embedding.

Modelling conventions:

* Byte streams are `List Nat`, each entry a byte value `< 256`.
* Python `struct.pack` of big-endian unsigned/two's-complement integers is
  modelled by `beBytes` / `twosComp`.
* Python's arbitrary-precision `int` is `Int`.
* Python `float` (an IEEE double) is modelled by `FloatVal`: either an exact
  finite rational value, one of the two infinities, or NaN.  The decimal
  float literals appearing in the source (`1.18e-38`, `3.4e38`, `2.23e-308`,
  `1.8e308`) are modelled as the exact rationals those numerals denote.
* Generators / iterators are modelled by the finite list of items they
  produce; the claims only quantify over producers that yield finitely many
  items.
* An encoder run is a `Res`: the byte chunks actually yielded (joined),
  paired with the exception, if any, that aborted the run.  This mirrors
  consuming `iterencode` to completion: chunks yielded before an exception
  are observable, everything after is not.
-/

namespace UBJ

/-! ## Big-endian byte strings (model of `struct.pack` integer patterns) -/

/-- Big-endian bytes of `n`, exactly `w` bytes wide (the value is reduced
modulo `2 ^ (8 * w)`; whenever the encoder uses this, the value fits). -/
def beBytes : Nat → Nat → List Nat
  | 0, _ => []
  | w + 1, n => beBytes w (n / 256) ++ [n % 256]

/-- The numeric value of a big-endian byte string. -/
def beVal (bs : List Nat) : Nat :=
  bs.foldl (fun a b => a * 256 + b) 0

/-- Two's-complement big-endian payload of the integer `v`, `w` bytes wide:
the model of `struct.pack` with patterns `>b`, `>h`, `>i`, `>q`. -/
def twosComp (w : Nat) (v : Int) : List Nat :=
  beBytes w (v % ((2 : Int) ^ (8 * w))).toNat

/-- Read back a `w`-byte big-endian two's-complement payload. -/
def fromTwosComp (w : Nat) (bs : List Nat) : Int :=
  let n := beVal bs
  if 2 ^ (8 * w - 1) ≤ n then (n : Int) - 2 ^ (8 * w) else (n : Int)

/-! ## Markers (`MARKER_*` constants of the source, as ASCII byte values) -/

def MARKER_Z : Nat := 0x5A
def MARKER_N : Nat := 0x4E
def MARKER_F : Nat := 0x46
def MARKER_T : Nat := 0x54
def MARKER_B : Nat := 0x42
def MARKER_i : Nat := 0x69
def MARKER_I : Nat := 0x49
def MARKER_L : Nat := 0x4C
def MARKER_d : Nat := 0x64
def MARKER_D : Nat := 0x44
def MARKER_s : Nat := 0x73
def MARKER_S : Nat := 0x53
def MARKER_h : Nat := 0x68
def MARKER_H : Nat := 0x48
def MARKER_a : Nat := 0x61
def MARKER_A : Nat := 0x41
def MARKER_o : Nat := 0x6F
def MARKER_O : Nat := 0x4F
def MARKER_E : Nat := 0x45
def MARKER_FF : Nat := 0xFF

/-! ## Integer range classifiers (source lines 20–23) -/

def is_byte (v : Int) : Bool := decide (-(2 ^ 7) ≤ v) && decide (v ≤ 2 ^ 7 - 1)
def is_int16 (v : Int) : Bool := decide (-(2 ^ 15) ≤ v) && decide (v ≤ 2 ^ 15 - 1)
def is_int32 (v : Int) : Bool := decide (-(2 ^ 31) ≤ v) && decide (v ≤ 2 ^ 31 - 1)
def is_int64 (v : Int) : Bool := decide (-(2 ^ 63) ≤ v) && decide (v ≤ 2 ^ 63 - 1)

/-! ## UTF-8 (model of Python `.encode('utf-8')`) -/

/-- UTF-8 encoding of a single code point. -/
def utf8Char (c : Char) : List Nat :=
  let n := c.toNat
  if n < 0x80 then [n]
  else if n < 0x800 then
    [0xC0 + n / 0x40, 0x80 + n % 0x40]
  else if n < 0x10000 then
    [0xE0 + n / 0x1000, 0x80 + n / 0x40 % 0x40, 0x80 + n % 0x40]
  else
    [0xF0 + n / 0x40000, 0x80 + n / 0x1000 % 0x40, 0x80 + n / 0x40 % 0x40,
     0x80 + n % 0x40]

/-- UTF-8 bytes of a string. -/
def utf8Bytes (s : String) : List Nat :=
  s.data.flatMap utf8Char

/-! ## String / huge-number encoders (source lines 222–231 and 277–285),
at the level of the already-UTF-8-encoded byte payload. -/

/-- Model of `UBJSONEncoder.encode_str` applied to the UTF-8 bytes of the
string: short form `s` below the 255 threshold, long form `S` otherwise. -/
def encode_str (bs : List Nat) : List Nat :=
  if bs.length < 255 then MARKER_s :: beBytes 1 bs.length ++ bs
  else MARKER_S :: beBytes 4 bs.length ++ bs

/-- Model of `UBJSONEncoder.encode_huge_number` applied to the UTF-8 bytes of
the value's decimal text: short form `h` below the 255 threshold, long form
`H` otherwise. -/
def encode_huge_number (bs : List Nat) : List Nat :=
  if bs.length < 255 then MARKER_h :: beBytes 1 bs.length ++ bs
  else MARKER_H :: beBytes 4 bs.length ++ bs

/-! ## Integer encoder (source lines 200–210) -/

/-- Model of `UBJSONEncoder.encode_number`.  The huge-number fallback
stringifies the integer (`unicode(value)` produces the decimal digits, which
`toString : Int → String` reproduces). -/
def encode_number (v : Int) : List Nat :=
  if is_byte v then MARKER_B :: twosComp 1 v
  else if is_int16 v then MARKER_i :: twosComp 2 v
  else if is_int32 v then MARKER_I :: twosComp 4 v
  else if is_int64 v then MARKER_L :: twosComp 8 v
  else encode_huge_number (utf8Bytes (toString v))

/-- The four fixed-width forms: marker byte and payload width in bytes, in
the order the source tries them. -/
def intWidths : List (Nat × Nat) := [(MARKER_B, 1), (MARKER_i, 2), (MARKER_I, 4), (MARKER_L, 8)]

/-- The inclusive signed bounds of a `w`-byte two's-complement payload. -/
def fitsWidth (w : Nat) (v : Int) : Prop :=
  -(2 ^ (8 * w - 1)) ≤ v ∧ v ≤ 2 ^ (8 * w - 1) - 1

/-! ## Exact rationals

A minimal unnormalised fraction type (numerator over a positive denominator),
used to model finite Python float values and the decimal threshold literals
of the source exactly.  All operations below assume `den > 0`, which every
constructor used in this file maintains. -/

structure Q where
  num : Int
  den : Nat
deriving DecidableEq

def Q.ofInt (n : Int) : Q := ⟨n, 1⟩

def Q.le (a b : Q) : Bool := decide (a.num * (b.den : Int) ≤ b.num * (a.den : Int))

def Q.lt (a b : Q) : Bool := decide (a.num * (b.den : Int) < b.num * (a.den : Int))

def Q.beq (a b : Q) : Bool := decide (a.num * (b.den : Int) = b.num * (a.den : Int))

def Q.abs (a : Q) : Q := ⟨|a.num|, a.den⟩

def Q.isNeg (a : Q) : Bool := decide (a.num < 0)

/-- `a * 2 ^ k` for a (possibly negative) integer exponent `k`. -/
def Q.mulPow2 (a : Q) (k : Int) : Q :=
  if 0 ≤ k then ⟨a.num * 2 ^ k.toNat, a.den⟩ else ⟨a.num, a.den * 2 ^ (-k).toNat⟩

/-- `2 ^ k` as a `Q`, for a (possibly negative) integer exponent `k`. -/
def Q.pow2 (k : Int) : Q := Q.mulPow2 ⟨1, 1⟩ k

/-- Floor of a `Q` (floor division of numerator by denominator). -/
def Q.floor (a : Q) : Int := Int.fdiv a.num (a.den : Int)

/-- Round to the nearest integer, ties to even (IEEE-754 default rounding). -/
def Q.roundHalfEven (a : Q) : Int :=
  let n := Q.floor a
  let twiceFrac := 2 * (a.num - n * (a.den : Int))
  if twiceFrac < (a.den : Int) then n
  else if (a.den : Int) < twiceFrac then n + 1
  else if n % 2 = 0 then n else n + 1

/-- Fuel-driven base-2 logarithm on `Nat` (structural, kernel-reducible). -/
def log2fuel : Nat → Nat → Nat
  | 0, _ => 0
  | f + 1, n => if n ≤ 1 then 0 else log2fuel f (n / 2) + 1

def natLog2 (n : Nat) : Nat := log2fuel n n

/-- For `0 < a`, the integer `e` with `2 ^ e ≤ a < 2 ^ (e + 1)`. -/
def Q.floorLog2 (a : Q) : Int :=
  let e0 : Int := (natLog2 a.num.toNat : Int) - (natLog2 a.den : Int)
  if Q.le (Q.pow2 e0) a then e0 else e0 - 1

/-! ## Python float values

A Python float is an IEEE-754 double: a finite value (held here as the exact
rational it denotes), an infinity, or NaN.  `PyFloat` additionally carries the
textual representation Python's `unicode(value)` would produce, which the
encoder's huge-number fallback serialises; the text is data of the model, the
numeric classification never consults it. -/

inductive FloatVal where
  | fin (q : Q)
  | inf
  | neginf
  | nan
deriving DecidableEq

structure PyFloat where
  val : FloatVal
  text : String

/-- Absolute value (`abs` on floats): both infinities map to `inf`; NaN stays
NaN. -/
def FloatVal.fabs : FloatVal → FloatVal
  | .fin q => .fin (Q.abs q)
  | .inf => .inf
  | .neginf => .inf
  | .nan => .nan

/-- `a <= b` on floats; any comparison with NaN is false. -/
def FloatVal.leB : FloatVal → FloatVal → Bool
  | .nan, _ => false
  | _, .nan => false
  | .fin a, .fin b => Q.le a b
  | .fin _, .inf => true
  | .fin _, .neginf => false
  | .inf, .inf => true
  | .inf, _ => false
  | .neginf, _ => true

/-- `a < b` on floats; any comparison with NaN is false. -/
def FloatVal.ltB : FloatVal → FloatVal → Bool
  | .nan, _ => false
  | _, .nan => false
  | .fin a, .fin b => Q.lt a b
  | .fin _, .inf => true
  | .fin _, .neginf => false
  | .inf, _ => false
  | .neginf, .neginf => false
  | .neginf, _ => true

/-- `a == b` on floats; NaN is not equal to anything, itself included. -/
def FloatVal.eqB : FloatVal → FloatVal → Bool
  | .fin a, .fin b => Q.beq a b
  | .inf, .inf => true
  | .neginf, .neginf => true
  | _, _ => false

/-! ## Float range classifiers (source lines 24–26) -/

/-- `1.18e-38`, as the exact rational the decimal numeral denotes. -/
def singleMin : Q := ⟨118, 10 ^ 40⟩
/-- `3.4e38`. -/
def singleMax : Q := ⟨34 * 10 ^ 37, 1⟩
/-- `2.23e-308`. -/
def doubleMin : Q := ⟨223, 10 ^ 310⟩
/-- `1.8e308` (larger than any finite double; the source comments it is inf). -/
def doubleMax : Q := ⟨18 * 10 ^ 307, 1⟩

def is_float (v : FloatVal) : Bool :=
  FloatVal.leB (.fin singleMin) v.fabs && FloatVal.leB v.fabs (.fin singleMax)

def is_double (v : FloatVal) : Bool :=
  FloatVal.leB (.fin doubleMin) v.fabs && FloatVal.ltB v.fabs (.fin doubleMax)

def is_infinity (v : FloatVal) : Bool :=
  FloatVal.eqB v .inf || FloatVal.eqB v .neginf

/-! ## IEEE-754 packing (model of `struct.pack` patterns `>f` and `>d`)

`ieeeBits mbits ebits q` produces the bit pattern of the binary
interchange format with `mbits` mantissa bits and `ebits` exponent bits
(single: 23/8, double: 52/11) for the exact rational `q`, rounding to
nearest, ties to even.  The encoder only reaches these functions for values
inside the normal range of the target format (guaranteed by the classifiers
above), so the subnormal corner flushes to zero without affecting any
modelled behaviour; overflow produces the infinity pattern as `struct.pack`
does. -/

def ieeeBits (mbits ebits : Nat) (q : Q) : Nat :=
  let bias := 2 ^ (ebits - 1) - 1
  if Q.beq q ⟨0, 1⟩ then 0
  else
    let s : Nat := if Q.isNeg q then 1 else 0
    let a := Q.abs q
    let e : Int := Q.floorLog2 a
    let m : Int := Q.roundHalfEven (Q.mulPow2 a ((mbits : Int) - e))
    let e : Int := if m = 2 ^ (mbits + 1) then e + 1 else e
    let m : Int := if m = 2 ^ (mbits + 1) then 2 ^ mbits else m
    if (bias : Int) < e then
      s * 2 ^ (mbits + ebits) + (2 ^ ebits - 1) * 2 ^ mbits
    else if e + (bias : Int) ≤ 0 then
      s * 2 ^ (mbits + ebits)
    else
      s * 2 ^ (mbits + ebits) + (e + (bias : Int)).toNat * 2 ^ mbits +
        (m - 2 ^ mbits).toNat

/-- Model of `struct.pack('>f', value)`: 4-byte big-endian IEEE-754 single
precision.  On the special values it produces CPython's exact bit patterns. -/
def packSingle : FloatVal → List Nat
  | .fin q => beBytes 4 (ieeeBits 23 8 q)
  | .inf => [0x7F, 0x80, 0x00, 0x00]
  | .neginf => [0xFF, 0x80, 0x00, 0x00]
  | .nan => [0x7F, 0xC0, 0x00, 0x00]

/-- Model of `struct.pack('>d', value)`: 8-byte big-endian IEEE-754 double
precision. -/
def packDouble : FloatVal → List Nat
  | .fin q => beBytes 8 (ieeeBits 52 11 q)
  | .inf => [0x7F, 0xF0, 0, 0, 0, 0, 0, 0]
  | .neginf => [0xFF, 0xF0, 0, 0, 0, 0, 0, 0]
  | .nan => [0x7F, 0xF8, 0, 0, 0, 0, 0, 0]

/-! ## Float encoder (source lines 212–220) -/

/-- Model of `UBJSONEncoder.encode_float`. -/
def encode_float (f : PyFloat) : List Nat :=
  if is_float f.val then MARKER_d :: packSingle f.val
  else if is_double f.val then MARKER_D :: packDouble f.val
  else if is_infinity f.val then [MARKER_Z]
  else encode_huge_number (utf8Bytes f.text)

/-! ## Spec-side description of the float encoding (claim C2's wording) -/

/-- The claim's first range test: `1.18e-38 ≤ |v| ≤ 3.4e38`. -/
def inSingleRange (v : FloatVal) : Bool :=
  FloatVal.leB (.fin singleMin) v.fabs && FloatVal.leB v.fabs (.fin singleMax)

/-- The claim's second range test: `2.23e-308 ≤ |v| < 1.8e308`. -/
def inDoubleRange (v : FloatVal) : Bool :=
  FloatVal.leB (.fin doubleMin) v.fabs && FloatVal.ltB v.fabs (.fin doubleMax)

/-- The claim's third test: `|v|` is exactly infinite. -/
def absInfinite (v : FloatVal) : Bool := FloatVal.eqB v.fabs .inf

/-- The float encoding exactly as claim C2 words it, as a separate
definition to compare with the source-derived `encode_float`. -/
def floatEncSpec (f : PyFloat) : List Nat :=
  if inSingleRange f.val then MARKER_d :: packSingle f.val
  else if inDoubleRange f.val then MARKER_D :: packDouble f.val
  else if absInfinite f.val then [MARKER_Z]
  else encode_huge_number (utf8Bytes f.text)

/-! ## Encoder run results

`Res` models a fully consumed `iterencode` run: the joined byte chunks the
generator yielded before finishing or raising, and the exception (if any)
that aborted it. -/

/-- The exceptions the encoder can raise: the `assert` in the two object
encoders (`AssertionError: object key should be a string`) and the
`TypeError` of `encode_default`, carrying its message. -/
inductive EncErr where
  | invalidKey
  | unsupported (msg : String)
deriving DecidableEq

abbrev Res := List Nat × Option EncErr

/-- A run that yields `bs` and returns normally. -/
def Res.ok (bs : List Nat) : Res := (bs, none)

/-- Sequencing of two runs: if the first raises, the second never starts. -/
def Res.seq (a b : Res) : Res :=
  match a.2 with
  | some _ => a
  | none => (a.1 ++ b.1, b.2)

/-! ## Python values

The closed union of value shapes the default handler table dispatches on,
plus `foreign`, an object of an unregistered class (carrying its `repr`
text).  `tuple`, `list`, `set` and `frozenset` all map to `encode_array` and
are represented by the single constructor `arr`; `dict.iterkeys()`,
`dict.itervalues()`, `xrange` and generators all map to `encode_generator`
and are represented by `gen`; `dict.iteritems()` maps to
`encode_iterated_dict` and is represented by `iobj`.  `decimal` is a
`decimal.Decimal`, carried as its decimal text. -/

inductive Value where
  | noop
  | null
  | bool (b : Bool)
  | int (n : Int)
  | float (v : FloatVal) (text : String)
  | str (s : String)
  | arr (xs : List Value)
  | gen (xs : List Value)
  | obj (ps : List (Value × Value))
  | iobj (ps : List (Value × Value))
  | decimal (text : String)
  | foreign (rep : String)

/-- `isinstance(key, basestring)`, the check in the object-key assertions. -/
def isStr : Value → Bool
  | .str _ => true
  | _ => false

/-- The short or long sized-container header (encoders at source lines
233–240 and 253–260): 1-byte length under the 255 threshold, otherwise the
long marker with a 4-byte big-endian length. -/
def sizedHeader (short long n : Nat) : List Nat :=
  if n < 255 then short :: beBytes 1 n else long :: beBytes 4 n

/-! ## The recursive encoder

`encodeValue v` models a full `iterencode(v)` run.  The four mutually
recursive functions mirror `iterencode`'s dispatch outcome per value shape
(the dispatch itself, `get_handler`, is modelled separately below and
checked against this table).  In `encodeIPairs` the source calls
`self.iterencode((key, value))` — it encodes each produced pair *as a
2-tuple*, i.e. through `encode_array`; that call is inlined here as the
header `[MARKER_a, 2]` followed by the key's and value's encodings, exactly
the chunks `encode_array` yields for a pair. -/

mutual

def encodeValue : Value → Res
  | .noop => Res.ok [MARKER_N]
  | .null => Res.ok [MARKER_Z]
  | .bool b => Res.ok [if b then MARKER_T else MARKER_F]
  | .int n => Res.ok (encode_number n)
  | .float v text => Res.ok (encode_float ⟨v, text⟩)
  | .str s => Res.ok (encode_str (utf8Bytes s))
  | .decimal text => Res.ok (encode_huge_number (utf8Bytes text))
  | .arr xs => Res.seq (Res.ok (sizedHeader MARKER_a MARKER_A xs.length)) (encodeList xs)
  | .gen xs =>
      Res.seq (Res.seq (Res.ok [MARKER_a, MARKER_FF]) (encodeList xs)) (Res.ok [MARKER_E])
  | .obj ps => Res.seq (Res.ok (sizedHeader MARKER_o MARKER_O ps.length)) (encodePairs ps)
  | .iobj ps =>
      Res.seq (Res.seq (Res.ok [MARKER_o, MARKER_FF]) (encodeIPairs ps)) (Res.ok [MARKER_E])
  | .foreign rep => ([], some (.unsupported ("Unable to encode " ++ rep ++ " to ubjson")))

def encodeList : List Value → Res
  | [] => Res.ok []
  | x :: xs => Res.seq (encodeValue x) (encodeList xs)

def encodePairs : List (Value × Value) → Res
  | [] => Res.ok []
  | (k, v) :: ps =>
      if isStr k then
        Res.seq (Res.seq (encodeValue k) (encodeValue v)) (encodePairs ps)
      else ([], some .invalidKey)

def encodeIPairs : List (Value × Value) → Res
  | [] => Res.ok []
  | (k, v) :: ps =>
      if isStr k then
        Res.seq (Res.seq (Res.ok [MARKER_a, 2]) (Res.seq (encodeValue k) (encodeValue v)))
          (encodeIPairs ps)
      else ([], some .invalidKey)

end

/-! ## Handler dispatch (source lines 123–142 and 173–189) -/

/-- The type descriptors appearing as keys of the handler table, plus the
dynamic types of the modelled values.  `foreignT` is the class of an
unregistered object. -/
inductive PyType where
  | noneT | boolT | intT | longT | floatT | basestringT | strT
  | tupleT | listT | setT | frozensetT
  | dictKeysT | dictValuesT | dictItemsT | xrangeT | generatorT | dictT | decimalT
  | noopT
  | foreignT (name : String)
deriving DecidableEq

/-- The encode methods a dispatch can resolve to. -/
inductive Handler where
  | noopH | noneH | boolH | numberH | floatH | strH | arrayH
  | generatorH | iteratedDictH | dictH | hugeNumberH | defaultH
deriving DecidableEq

/-- The default handler table built in `__init__` (source lines 124–142), in
its insertion order. -/
def registry : List (PyType × Handler) :=
  [(.noneT, .noneH), (.boolT, .boolH), (.intT, .numberH), (.longT, .numberH),
   (.floatT, .floatH), (.basestringT, .strH), (.tupleT, .arrayH), (.listT, .arrayH),
   (.setT, .arrayH), (.frozensetT, .arrayH), (.dictKeysT, .generatorH),
   (.dictValuesT, .generatorH), (.dictItemsT, .iteratedDictH), (.xrangeT, .generatorH),
   (.generatorT, .generatorH), (.dictT, .dictH), (.decimalT, .hugeNumberH)]

/-- The dynamic type of a value (`type(value)`).  Model strings are `str`,
whose handler is registered under the `basestring` category, so strings
resolve through the subtype scan, as string-like values do in the source. -/
def typeOf : Value → PyType
  | .noop => .noopT
  | .null => .noneT
  | .bool _ => .boolT
  | .int _ => .intT
  | .float _ _ => .floatT
  | .str _ => .strT
  | .arr _ => .listT
  | .gen _ => .generatorT
  | .obj _ => .dictT
  | .iobj _ => .dictItemsT
  | .decimal _ => .decimalT
  | .foreign name => .foreignT name

/-- `isinstance(value, t)` for the modelled values: true on the value's own
class, and additionally `bool` is a subclass of `int` and `str` of
`basestring`, as in Python. -/
def isinst (v : Value) (t : PyType) : Bool :=
  typeOf v == t ||
    (match v with
     | .bool _ => t == .intT
     | .str _ => t == .basestringT
     | _ => false)

/-- `self._handlers.get(tval)`: the exact-type lookup. -/
def lookupExact (reg : List (PyType × Handler)) (t : PyType) : Option Handler :=
  (reg.find? (fun p => p.1 == t)).map Prod.snd

/-- The `for pytype, handler in self._handlers.items()` loop of
`get_handler`: every `isinstance` match overwrites `maybe_handler`. -/
def resolveLoop (inst : PyType → Bool) : List (PyType × Handler) → Option Handler → Option Handler
  | [], acc => acc
  | p :: rest, acc => resolveLoop inst rest (if inst p.1 then some p.2 else acc)

/-- Model of `UBJSONEncoder.get_handler` (source lines 173–186), generic in
the handler table and the `isinstance` relation so that tables extended via
the `handlers` constructor argument are covered. -/
def get_handler_gen (reg : List (PyType × Handler)) (isNoopV : Bool) (tval : PyType)
    (inst : PyType → Bool) : Handler :=
  if isNoopV then .noopH
  else
    match lookupExact reg tval with
    | some h => h
    | none =>
        match resolveLoop inst reg none with
        | some h => h
        | none => .defaultH

/-- `value is NOOP`. -/
def isNOOP : Value → Bool
  | .noop => true
  | _ => false

/-- `get_handler` of the encoder with the default handler table. -/
def get_handler (v : Value) : Handler :=
  get_handler_gen registry (isNOOP v) (typeOf v) (isinst v)

end UBJ

namespace UBJ

theorem beBytes_length (w n : Nat) : (beBytes w n).length = w := by
  induction w generalizing n with
  | zero => rfl
  | succ w ih => simp [beBytes, ih]

theorem beVal_append_one (bs : List Nat) (b : Nat) :
    beVal (bs ++ [b]) = beVal bs * 256 + b := by
  simp [beVal, List.foldl_append]

theorem beVal_beBytes (w n : Nat) : beVal (beBytes w n) = n % 2 ^ (8 * w) := by
  induction w generalizing n with
  | zero => simp [beBytes, beVal, Nat.mod_one]
  | succ w ih =>
    rw [beBytes, beVal_append_one, ih]
    have hpow : (2 : Nat) ^ (8 * (w + 1)) = 256 * 2 ^ (8 * w) := by
      rw [Nat.mul_add, Nat.pow_add]; ring
    rw [hpow]
    have hsplit := Nat.div_add_mod (n % (256 * 2 ^ (8 * w))) 256
    rw [Nat.mod_mul_right_div_self, Nat.mod_mod_of_dvd n ⟨2 ^ (8 * w), rfl⟩] at hsplit
    omega

theorem twosComp_length (w : Nat) (v : Int) : (twosComp w v).length = w :=
  beBytes_length _ _

/-- Reading a two's-complement payload back yields the encoded integer, for
every integer within the width's signed bounds. -/
theorem twosComp_roundtrip (w : Nat) (hw : 0 < w) (v : Int)
    (h1 : -(2 ^ (8 * w - 1)) ≤ v) (h2 : v ≤ 2 ^ (8 * w - 1) - 1) :
    fromTwosComp w (twosComp w v) = v := by
  have hpowN : (2 : Nat) ^ (8 * w) = 2 * 2 ^ (8 * w - 1) := by
    have hsplit : 8 * w = (8 * w - 1) + 1 := by omega
    conv_lhs => rw [hsplit]
    rw [pow_succ]
    exact Nat.mul_comm _ _
  have hcastM : ((2 ^ (8 * w) : Nat) : Int) = 2 ^ (8 * w) := by push_cast; ring
  have hcastP : ((2 ^ (8 * w - 1) : Nat) : Int) = 2 ^ (8 * w - 1) := by push_cast; ring
  have hpowZ : (2 : Int) ^ (8 * w) = 2 * 2 ^ (8 * w - 1) := by
    have := congrArg (fun n : Nat => (n : Int)) hpowN
    push_cast at this; linarith
  have hMpos : (0 : Int) < 2 ^ (8 * w) := by positivity
  have hmod_nonneg : 0 ≤ v % 2 ^ (8 * w) := Int.emod_nonneg v (ne_of_gt hMpos)
  have hmod_lt : v % 2 ^ (8 * w) < 2 ^ (8 * w) := Int.emod_lt_of_pos v hMpos
  have hval : v % 2 ^ (8 * w) = if 0 ≤ v then v else v + 2 ^ (8 * w) := by
    by_cases hv : 0 ≤ v
    · simp only [hv, if_true]
      exact Int.emod_eq_of_lt hv (by linarith)
    · simp only [hv, if_false]
      have h0 : (v + 2 ^ (8 * w)) % 2 ^ (8 * w) = v % 2 ^ (8 * w) := by
        have h00 := Int.add_mul_emod_self_left v ((2 : Int) ^ (8 * w)) 1
        rw [mul_one] at h00
        exact h00
      rw [← h0]
      refine Int.emod_eq_of_lt (by push_neg at hv; linarith) (by push_neg at hv; linarith)
  have hN : ((v % 2 ^ (8 * w)).toNat : Int) = v % 2 ^ (8 * w) :=
    Int.toNat_of_nonneg hmod_nonneg
  unfold fromTwosComp twosComp
  rw [beVal_beBytes]
  have hNlt : (v % 2 ^ (8 * w)).toNat < 2 ^ (8 * w) := by omega
  rw [Nat.mod_eq_of_lt hNlt]
  by_cases hc : 2 ^ (8 * w - 1) ≤ (v % 2 ^ (8 * w)).toNat
  · simp only [hc, if_true]
    by_cases hv : 0 ≤ v <;> simp [hv] at hval <;> omega
  · simp only [hc, if_false]
    by_cases hv : 0 ≤ v <;> simp [hv] at hval <;> omega

/-! ## Run-sequencing lemmas -/

theorem Res.seq_none (bs : List Nat) (b : Res) :
    Res.seq (bs, none) b = (bs ++ b.1, b.2) := rfl

theorem Res.seq_some (bs : List Nat) (e : EncErr) (b : Res) :
    Res.seq (bs, some e) b = (bs, some e) := rfl

/-- When every element of a list encodes without raising, the list encoder
yields exactly the concatenation of the element encodings, in list order,
and itself returns normally. -/
theorem encodeList_eq_flatten (xs : List Value)
    (h : ∀ x ∈ xs, (encodeValue x).2 = none) :
    encodeList xs = ((xs.map fun x => (encodeValue x).1).flatten, none) := by
  induction xs with
  | nil => rfl
  | cons x xs ih =>
    have hx : (encodeValue x).2 = none := h x (by simp)
    have ihh := ih (fun y hy => h y (by simp [hy]))
    rcases hval : encodeValue x with ⟨bs, err⟩
    rw [hval] at hx; simp at hx; subst hx
    simp [encodeList, ihh, hval, Res.seq_none]

/-- When every entry of a pair list has a string key and a value that encodes
without raising, the sized-object pair encoder yields, per entry, the key's
encoding immediately followed by the value's encoding, in list order, and
returns normally. -/
theorem encodePairs_eq_flatten (ps : List (Value × Value))
    (h : ∀ p ∈ ps, isStr p.1 = true ∧ (encodeValue p.2).2 = none) :
    encodePairs ps =
      ((ps.map fun p => (encodeValue p.1).1 ++ (encodeValue p.2).1).flatten, none) := by
  induction ps with
  | nil => rfl
  | cons p ps ih =>
    obtain ⟨hk, hv⟩ := h p (by simp)
    have ihh := ih (fun q hq => h q (by simp [hq]))
    obtain ⟨k, v⟩ := p
    have hkenc : (encodeValue k).2 = none := by
      cases k <;> simp_all [isStr, encodeValue, Res.ok]
    rcases hkval : encodeValue k with ⟨kbs, kerr⟩
    rcases hvval : encodeValue v with ⟨vbs, verr⟩
    rw [hkval] at hkenc; simp at hkenc; subst hkenc
    rw [hvval] at hv; simp at hv; subst hv
    simp [encodePairs, hk, ihh, hkval, hvval, Res.ok, Res.seq_none]

/-- When every entry of a pair list has a string key and a value that encodes
without raising, the unsized-object pair encoder yields, per entry, the
encoding of the `(key, value)` 2-tuple (a sized array of length 2), in list
order, and returns normally. -/
theorem encodeIPairs_eq_flatten (ps : List (Value × Value))
    (h : ∀ p ∈ ps, isStr p.1 = true ∧ (encodeValue p.2).2 = none) :
    encodeIPairs ps =
      ((ps.map fun p =>
        MARKER_a :: 2 :: ((encodeValue p.1).1 ++ (encodeValue p.2).1)).flatten, none) := by
  induction ps with
  | nil => rfl
  | cons p ps ih =>
    obtain ⟨hk, hv⟩ := h p (by simp)
    have ihh := ih (fun q hq => h q (by simp [hq]))
    obtain ⟨k, v⟩ := p
    have hkenc : (encodeValue k).2 = none := by
      cases k <;> simp_all [isStr, encodeValue, Res.ok]
    rcases hkval : encodeValue k with ⟨kbs, kerr⟩
    rcases hvval : encodeValue v with ⟨vbs, verr⟩
    rw [hkval] at hkenc; simp at hkenc; subst hkenc
    rw [hvval] at hv; simp at hv; subst hv
    simp [encodeIPairs, hk, ihh, hkval, hvval, Res.ok, Res.seq_none]

/-- The inlined per-entry chunks of the unsized-object encoder are exactly
the encoding of the corresponding `(key, value)` 2-tuple: the source's
`self.iterencode((key, value))` dispatches the pair to `encode_array`. -/
theorem iPair_chunks_eq_tuple_encoding (k v : Value)
    (hk : (encodeValue k).2 = none) (hv : (encodeValue v).2 = none) :
    (MARKER_a :: 2 :: ((encodeValue k).1 ++ (encodeValue v).1), (none : Option EncErr)) =
      encodeValue (.arr [k, v]) := by
  rcases hkval : encodeValue k with ⟨kbs, kerr⟩
  rcases hvval : encodeValue v with ⟨vbs, verr⟩
  rw [hkval] at hk; simp at hk; subst hk
  rw [hvval] at hv; simp at hv; subst hv
  simp [encodeValue, encodeList, sizedHeader, beBytes, Res.ok, Res.seq_none, hkval, hvval]

/-! ## Range classifiers versus payload-width bounds -/

theorem is_byte_iff (v : Int) : is_byte v = true ↔ fitsWidth 1 v := by
  simp [is_byte, fitsWidth, Bool.and_eq_true, decide_eq_true_eq]

theorem is_int16_iff (v : Int) : is_int16 v = true ↔ fitsWidth 2 v := by
  simp [is_int16, fitsWidth, Bool.and_eq_true, decide_eq_true_eq]

theorem is_int32_iff (v : Int) : is_int32 v = true ↔ fitsWidth 4 v := by
  simp [is_int32, fitsWidth, Bool.and_eq_true, decide_eq_true_eq]

theorem is_int64_iff (v : Int) : is_int64 v = true ↔ fitsWidth 8 v := by
  simp [is_int64, fitsWidth, Bool.and_eq_true, decide_eq_true_eq]

/-! ## Claim theorems -/

/-- C1: For every integer within the signed 64-bit range, `encode_number`
emits the narrowest of the fixed-width forms `B` (8-bit), `i` (16-bit),
`I` (32-bit), `L` (64-bit) whose inclusive bounds contain the value, as a
one-byte marker followed by the big-endian two's-complement payload of that
width (witnessed by the payload's width and by reading the payload back);
for every integer outside the 64-bit range, a huge-number encoding is
produced instead. -/
theorem encode_number_narrowest (v : Int) :
    (is_int64 v = true →
      ∃ p, p ∈ intWidths ∧
        encode_number v = p.1 :: twosComp p.2 v ∧
        (twosComp p.2 v).length = p.2 ∧
        fitsWidth p.2 v ∧
        (∀ q ∈ intWidths, fitsWidth q.2 v → p.2 ≤ q.2) ∧
        fromTwosComp p.2 (twosComp p.2 v) = v) ∧
    (is_int64 v = false →
      encode_number v = encode_huge_number (utf8Bytes (toString v))) := by
  constructor
  · intro h64
    by_cases h8 : is_byte v = true
    · have hfit := (is_byte_iff v).mp h8
      refine ⟨(MARKER_B, 1), by simp [intWidths], by simp [encode_number, h8],
        twosComp_length _ _, hfit, ?_, twosComp_roundtrip 1 (by norm_num) v hfit.1 hfit.2⟩
      intro q hq hfq
      simp [intWidths] at hq
      rcases hq with rfl | rfl | rfl | rfl <;> norm_num
    · by_cases h16 : is_int16 v = true
      · have hfit := (is_int16_iff v).mp h16
        refine ⟨(MARKER_i, 2), by simp [intWidths], by simp [encode_number, h8, h16],
          twosComp_length _ _, hfit, ?_, twosComp_roundtrip 2 (by norm_num) v hfit.1 hfit.2⟩
        intro q hq hfq
        simp [intWidths] at hq
        rcases hq with rfl | rfl | rfl | rfl <;> norm_num
        exact absurd ((is_byte_iff v).mpr hfq) h8
      · by_cases h32 : is_int32 v = true
        · have hfit := (is_int32_iff v).mp h32
          refine ⟨(MARKER_I, 4), by simp [intWidths], by simp [encode_number, h8, h16, h32],
            twosComp_length _ _, hfit, ?_, twosComp_roundtrip 4 (by norm_num) v hfit.1 hfit.2⟩
          intro q hq hfq
          simp [intWidths] at hq
          rcases hq with rfl | rfl | rfl | rfl <;> norm_num
          · exact absurd ((is_byte_iff v).mpr hfq) h8
          · exact absurd ((is_int16_iff v).mpr hfq) h16
        · have hfit := (is_int64_iff v).mp h64
          refine ⟨(MARKER_L, 8), by simp [intWidths],
            by simp [encode_number, h8, h16, h32, h64],
            twosComp_length _ _, hfit, ?_, twosComp_roundtrip 8 (by norm_num) v hfit.1 hfit.2⟩
          intro q hq hfq
          simp [intWidths] at hq
          rcases hq with rfl | rfl | rfl | rfl <;> norm_num
          · exact absurd ((is_byte_iff v).mpr hfq) h8
          · exact absurd ((is_int16_iff v).mpr hfq) h16
          · exact absurd ((is_int32_iff v).mpr hfq) h32
  · intro h64
    have h8 : is_byte v = false := by
      rcases Bool.eq_false_or_eq_true (is_byte v) with h | h
      · exact absurd ((is_int64_iff v).mpr ⟨by have := ((is_byte_iff v).mp h).1; omega,
          by have := ((is_byte_iff v).mp h).2; omega⟩) (by simp [h64])
      · exact h
    have h16 : is_int16 v = false := by
      rcases Bool.eq_false_or_eq_true (is_int16 v) with h | h
      · exact absurd ((is_int64_iff v).mpr ⟨by have := ((is_int16_iff v).mp h).1; omega,
          by have := ((is_int16_iff v).mp h).2; omega⟩) (by simp [h64])
      · exact h
    have h32 : is_int32 v = false := by
      rcases Bool.eq_false_or_eq_true (is_int32 v) with h | h
      · exact absurd ((is_int64_iff v).mpr ⟨by have := ((is_int32_iff v).mp h).1; omega,
          by have := ((is_int32_iff v).mp h).2; omega⟩) (by simp [h64])
      · exact h
    simp [encode_number, h8, h16, h32, h64]

/-- Witness for C1 at the concrete input 300: the 16-bit form is selected. -/
theorem encode_number_narrowest_witness :
    ∃ p, p ∈ intWidths ∧
      encode_number 300 = p.1 :: twosComp p.2 300 ∧
      (twosComp p.2 300).length = p.2 ∧
      fitsWidth p.2 300 ∧
      (∀ q ∈ intWidths, fitsWidth q.2 300 → p.2 ≤ q.2) ∧
      fromTwosComp p.2 (twosComp p.2 300) = 300 :=
  (encode_number_narrowest 300).1 (by decide)

/-- C2: For every float value, the source encoder agrees byte-for-byte with
the claim's classification: single-precision range (`1.18e-38 ≤ |v| ≤
3.4e38`) gives marker `d` plus a 4-byte big-endian IEEE-754 single-precision
payload; else the double-precision range (`2.23e-308 ≤ |v| < 1.8e308`) gives
marker `D` plus an 8-byte payload; else an exactly infinite magnitude gives
the single `Z` marker, byte-identical to the encoding of `None`; every other
magnitude falls through to the huge-number encoding. -/
theorem encode_float_matches_spec (f : PyFloat) :
    encode_float f = floatEncSpec f ∧
    (packSingle f.val).length = 4 ∧
    (packDouble f.val).length = 8 ∧
    (f.val = .inf ∨ f.val = .neginf →
      encodeValue (.float f.val f.text) = encodeValue .null) := by
  obtain ⟨v, text⟩ := f
  refine ⟨?_, ?_, ?_, ?_⟩
  · cases v <;>
      simp [encode_float, floatEncSpec, is_float, inSingleRange, is_double, inDoubleRange,
        is_infinity, absInfinite, FloatVal.eqB, FloatVal.fabs, FloatVal.leB, FloatVal.ltB]
  · cases v <;> simp [packSingle, beBytes_length]
  · cases v <;> simp [packDouble, beBytes_length]
  · rintro (h | h) <;> simp only at h <;> subst h <;>
      simp [encodeValue, encode_float, is_float, is_double, is_infinity, FloatVal.eqB,
        FloatVal.fabs, FloatVal.leB, FloatVal.ltB, Res.ok]

/-- Witness for C2 at positive infinity: it encodes as the single `Z`
marker, byte-identical to the encoding of `None`. -/
theorem encode_float_matches_spec_witness :
    encodeValue (.float .inf "inf") = encodeValue .null ∧
    encode_float ⟨.inf, "inf"⟩ = [MARKER_Z] :=
  ⟨(encode_float_matches_spec ⟨.inf, "inf"⟩).2.2.2 (Or.inl rfl), by decide⟩

/-- C3: For every sized array and sized object whose elements (and entry
values) encode without raising, and whose keys are strings, the emitted
length field decodes to exactly the container's declared element count, and
exactly that many element (or key-then-value) encodings follow, in the
container's original enumeration order; the short marker with a 1-byte
length is used when the count is below 255, the long marker with a 4-byte
big-endian length when the count is at least 255.  (Counts at or above
`2 ^ 32` make the source's `struct.pack('>I', …)` raise, so the length
field exists only below that bound.) -/
theorem sized_containers_exact (xs : List Value) (ps : List (Value × Value))
    (hx : ∀ x ∈ xs, (encodeValue x).2 = none)
    (hp : ∀ p ∈ ps, isStr p.1 = true ∧ (encodeValue p.2).2 = none)
    (hxlen : xs.length < 2 ^ 32) (hplen : ps.length < 2 ^ 32) :
    encodeValue (.arr xs) =
      (sizedHeader MARKER_a MARKER_A xs.length ++
        (xs.map fun x => (encodeValue x).1).flatten, none) ∧
    encodeValue (.obj ps) =
      (sizedHeader MARKER_o MARKER_O ps.length ++
        (ps.map fun p => (encodeValue p.1).1 ++ (encodeValue p.2).1).flatten, none) ∧
    (xs.length < 255 →
      sizedHeader MARKER_a MARKER_A xs.length = [MARKER_a, xs.length]) ∧
    (255 ≤ xs.length →
      sizedHeader MARKER_a MARKER_A xs.length = MARKER_A :: beBytes 4 xs.length) ∧
    (ps.length < 255 →
      sizedHeader MARKER_o MARKER_O ps.length = [MARKER_o, ps.length]) ∧
    (255 ≤ ps.length →
      sizedHeader MARKER_o MARKER_O ps.length = MARKER_O :: beBytes 4 ps.length) ∧
    beVal (sizedHeader MARKER_a MARKER_A xs.length).tail = xs.length ∧
    beVal (sizedHeader MARKER_o MARKER_O ps.length).tail = ps.length ∧
    (xs.map fun x => (encodeValue x).1).length = xs.length ∧
    (ps.map fun p => (encodeValue p.1).1 ++ (encodeValue p.2).1).length = ps.length := by
  have harr : encodeValue (.arr xs) =
      (sizedHeader MARKER_a MARKER_A xs.length ++
        (xs.map fun x => (encodeValue x).1).flatten, none) := by
    simp [encodeValue, encodeList_eq_flatten xs hx, Res.ok, Res.seq_none]
  have hobj : encodeValue (.obj ps) =
      (sizedHeader MARKER_o MARKER_O ps.length ++
        (ps.map fun p => (encodeValue p.1).1 ++ (encodeValue p.2).1).flatten, none) := by
    simp [encodeValue, encodePairs_eq_flatten ps hp, Res.ok, Res.seq_none]
  have hshort : ∀ n : Nat, n < 255 → ∀ m M : Nat, sizedHeader m M n = [m, n] := by
    intro n hn m M
    simp [sizedHeader, hn, beBytes, Nat.mod_eq_of_lt (by omega : n < 256)]
  have hlong : ∀ n : Nat, 255 ≤ n → ∀ m M : Nat, sizedHeader m M n = M :: beBytes 4 n := by
    intro n hn m M
    simp only [sizedHeader]
    rw [if_neg (by omega : ¬ n < 255)]
  have htail : ∀ n : Nat, n < 2 ^ 32 → ∀ m M : Nat,
      beVal (sizedHeader m M n).tail = n := by
    intro n hn m M
    by_cases hc : n < 255
    · rw [hshort n hc m M]
      simp [beVal, Nat.mod_eq_of_lt (by omega : n < 256)]
    · rw [hlong n (by omega) m M]
      simp only [List.tail_cons]
      rw [beVal_beBytes]
      exact Nat.mod_eq_of_lt (by omega)
  exact ⟨harr, hobj, fun h => hshort _ h _ _, fun h => hlong _ h _ _,
    fun h => hshort _ h _ _, fun h => hlong _ h _ _,
    htail _ hxlen _ _, htail _ hplen _ _, by simp, by simp⟩

/-- Witness for C3 at a two-element array and a one-entry object. -/
theorem sized_containers_exact_witness :
    encodeValue (.arr [.int 1, .null]) =
      (sizedHeader MARKER_a MARKER_A 2 ++
        ([.int 1, .null].map fun x : Value => (encodeValue x).1).flatten, none) ∧
    encodeValue (.obj [(.str "a", .int 1)]) =
      (sizedHeader MARKER_o MARKER_O 1 ++
        ([(Value.str "a", Value.int 1)].map
          fun p => (encodeValue p.1).1 ++ (encodeValue p.2).1).flatten, none) ∧
    sizedHeader MARKER_a MARKER_A 2 = [MARKER_a, 2] := by
  have h := sized_containers_exact [.int 1, .null] [(.str "a", .int 1)]
    (by intro x hx; fin_cases hx <;> decide)
    (by intro p hp; fin_cases hp; exact ⟨by decide, by decide⟩)
    (by decide) (by decide)
  exact ⟨h.1, h.2.1, h.2.2.1 (by decide)⟩

/-- C4: For every unsized (lazy) producer that yields finitely many items
whose encodings do not raise, the encoding begins with the unsized marker
(`a` for generators/iterators, `o` for iterated dictionaries) followed by
the reserved `0xFF` placeholder byte, then the recursive encoding of each
produced item in production order, and ends with the end-of-container marker
`E`; no length field appears anywhere in the frame. -/
theorem unsized_containers (xs : List Value) (ps : List (Value × Value))
    (hx : ∀ x ∈ xs, (encodeValue x).2 = none)
    (hp : ∀ p ∈ ps, isStr p.1 = true ∧ (encodeValue p.2).2 = none) :
    encodeValue (.gen xs) =
      (MARKER_a :: MARKER_FF ::
        ((xs.map fun x => (encodeValue x).1).flatten ++ [MARKER_E]), none) ∧
    encodeValue (.iobj ps) =
      (MARKER_o :: MARKER_FF ::
        ((ps.map fun p => (encodeValue (.arr [p.1, p.2])).1).flatten ++ [MARKER_E]),
       none) := by
  constructor
  · simp [encodeValue, encodeList_eq_flatten xs hx, Res.ok, Res.seq_none]
  · have hmap : (ps.map fun p =>
        MARKER_a :: 2 :: ((encodeValue p.1).1 ++ (encodeValue p.2).1)) =
        ps.map fun p => (encodeValue (.arr [p.1, p.2])).1 := by
      refine List.map_congr_left (fun p hq => ?_)
      obtain ⟨hk, hv⟩ := hp p hq
      have hkenc : (encodeValue p.1).2 = none := by
        rcases p with ⟨k, v⟩
        cases k <;> first | rfl | simp_all [isStr]
      have := iPair_chunks_eq_tuple_encoding p.1 p.2 hkenc hv
      exact congrArg Prod.fst this
    rw [← hmap]
    simp [encodeValue, encodeIPairs_eq_flatten ps hp, Res.ok, Res.seq_none]

/-- Witness for C4 at a two-element generator and a one-entry iterated
dictionary. -/
theorem unsized_containers_witness :
    encodeValue (.gen [.int 1, .int 2]) =
      (MARKER_a :: MARKER_FF ::
        (([Value.int 1, Value.int 2].map fun x => (encodeValue x).1).flatten ++
          [MARKER_E]), none) ∧
    encodeValue (.iobj [(.str "a", .int 1)]) =
      (MARKER_o :: MARKER_FF ::
        (([(Value.str "a", Value.int 1)].map
          fun p => (encodeValue (.arr [p.1, p.2])).1).flatten ++ [MARKER_E]), none) :=
  unsized_containers [.int 1, .int 2] [(.str "a", .int 1)]
    (by intro x hx; fin_cases hx <;> decide)
    (by intro p hp; fin_cases hp; exact ⟨by decide, by decide⟩)

/-- C5: For every string, when its UTF-8 byte length is below 255 the
encoding is the short marker `s`, a 1-byte length, then the bytes; otherwise
the long marker `S`, a 4-byte big-endian length, then the bytes.  The
identical 255 threshold governs huge numbers (markers `h` and `H`) by the
byte length of their decimal text.  (Byte lengths at or above `2 ^ 32` make
the source's `struct.pack('>I', …)` raise, so the long length field exists
only below that bound.) -/
theorem string_huge_threshold (s t : String)
    (hs : (utf8Bytes s).length < 2 ^ 32) (ht : (utf8Bytes t).length < 2 ^ 32) :
    ((utf8Bytes s).length < 255 →
      encode_str (utf8Bytes s) =
        MARKER_s :: (utf8Bytes s).length :: utf8Bytes s) ∧
    (255 ≤ (utf8Bytes s).length →
      encode_str (utf8Bytes s) =
        MARKER_S :: beBytes 4 (utf8Bytes s).length ++ utf8Bytes s ∧
      beVal (beBytes 4 (utf8Bytes s).length) = (utf8Bytes s).length) ∧
    ((utf8Bytes t).length < 255 →
      encode_huge_number (utf8Bytes t) =
        MARKER_h :: (utf8Bytes t).length :: utf8Bytes t) ∧
    (255 ≤ (utf8Bytes t).length →
      encode_huge_number (utf8Bytes t) =
        MARKER_H :: beBytes 4 (utf8Bytes t).length ++ utf8Bytes t ∧
      beVal (beBytes 4 (utf8Bytes t).length) = (utf8Bytes t).length) ∧
    encodeValue (.str s) = (encode_str (utf8Bytes s), none) ∧
    encodeValue (.decimal t) = (encode_huge_number (utf8Bytes t), none) := by
  refine ⟨?_, ?_, ?_, ?_, rfl, rfl⟩
  · intro h
    simp [encode_str, h, beBytes,
      Nat.mod_eq_of_lt (by omega : (utf8Bytes s).length < 256)]
  · intro h
    refine ⟨?_, ?_⟩
    · simp only [encode_str]
      rw [if_neg (by omega : ¬ (utf8Bytes s).length < 255)]
    · rw [beVal_beBytes]
      exact Nat.mod_eq_of_lt (by omega)
  · intro h
    simp [encode_huge_number, h, beBytes,
      Nat.mod_eq_of_lt (by omega : (utf8Bytes t).length < 256)]
  · intro h
    refine ⟨?_, ?_⟩
    · simp only [encode_huge_number]
      rw [if_neg (by omega : ¬ (utf8Bytes t).length < 255)]
    · rw [beVal_beBytes]
      exact Nat.mod_eq_of_lt (by omega)

/-- Witness for C5 at the short string `"hi"` and the short huge-number text
`"3.14"`. -/
theorem string_huge_threshold_witness :
    encode_str (utf8Bytes "hi") =
      MARKER_s :: (utf8Bytes "hi").length :: utf8Bytes "hi" ∧
    encode_huge_number (utf8Bytes "3.14") =
      MARKER_h :: (utf8Bytes "3.14").length :: utf8Bytes "3.14" :=
  ⟨((string_huge_threshold "hi" "3.14" (by decide) (by decide)).1 (by decide)),
   ((string_huge_threshold "hi" "3.14" (by decide) (by decide)).2.2.1 (by decide))⟩

/-! ## Error-propagation helpers for the object encoders -/

/-- The sized-object pair encoder processes entries in order: entries before
the first non-string key contribute their chunks, the offending entry raises
the key assertion, nothing after it runs. -/
theorem encodePairs_invalid_at (pre : List (Value × Value)) (k v : Value)
    (rest : List (Value × Value))
    (hpre : ∀ p ∈ pre, isStr p.1 = true ∧ (encodeValue p.2).2 = none)
    (hk : isStr k = false) :
    encodePairs (pre ++ (k, v) :: rest) =
      ((pre.map fun p => (encodeValue p.1).1 ++ (encodeValue p.2).1).flatten,
       some .invalidKey) := by
  induction pre with
  | nil => simp [encodePairs, hk]
  | cons p pre ih =>
    obtain ⟨hks, hv⟩ := hpre p (by simp)
    have ihh := ih (fun q hq => hpre q (by simp [hq]))
    obtain ⟨k1, v1⟩ := p
    have hkenc : (encodeValue k1).2 = none := by
      cases k1 <;> first | rfl | simp_all [isStr]
    rcases hkval : encodeValue k1 with ⟨kbs, kerr⟩
    rcases hvval : encodeValue v1 with ⟨vbs, verr⟩
    rw [hkval] at hkenc; simp at hkenc; subst hkenc
    rw [hvval] at hv; simp at hv; subst hv
    simp [encodePairs, hks, ihh, hkval, hvval, Res.ok, Res.seq_none]

/-- The unsized-object pair encoder likewise raises the key assertion at the
first non-string key, after the chunks of the preceding entries. -/
theorem encodeIPairs_invalid_at (pre : List (Value × Value)) (k v : Value)
    (rest : List (Value × Value))
    (hpre : ∀ p ∈ pre, isStr p.1 = true ∧ (encodeValue p.2).2 = none)
    (hk : isStr k = false) :
    encodeIPairs (pre ++ (k, v) :: rest) =
      ((pre.map fun p =>
        MARKER_a :: 2 :: ((encodeValue p.1).1 ++ (encodeValue p.2).1)).flatten,
       some .invalidKey) := by
  induction pre with
  | nil => simp [encodeIPairs, hk]
  | cons p pre ih =>
    obtain ⟨hks, hv⟩ := hpre p (by simp)
    have ihh := ih (fun q hq => hpre q (by simp [hq]))
    obtain ⟨k1, v1⟩ := p
    have hkenc : (encodeValue k1).2 = none := by
      cases k1 <;> first | rfl | simp_all [isStr]
    rcases hkval : encodeValue k1 with ⟨kbs, kerr⟩
    rcases hvval : encodeValue v1 with ⟨vbs, verr⟩
    rw [hkval] at hkenc; simp at hkenc; subst hkenc
    rw [hvval] at hv; simp at hv; subst hv
    simp [encodeIPairs, hks, ihh, hkval, hvval, Res.ok, Res.seq_none]

/-- C9: For every sized object and every unsized object, a non-string key
triggers the fatal key assertion at the point of the offending entry: the
bytes already yielded are exactly the header plus the encodings of the
entries before the offending one, the run aborts with the assertion error,
and no coerced key is ever emitted. -/
theorem invalid_key_aborts (pre rest : List (Value × Value)) (k v : Value)
    (hpre : ∀ p ∈ pre, isStr p.1 = true ∧ (encodeValue p.2).2 = none)
    (hk : isStr k = false) :
    encodeValue (.obj (pre ++ (k, v) :: rest)) =
      (sizedHeader MARKER_o MARKER_O (pre ++ (k, v) :: rest).length ++
        (pre.map fun p => (encodeValue p.1).1 ++ (encodeValue p.2).1).flatten,
       some .invalidKey) ∧
    encodeValue (.iobj (pre ++ (k, v) :: rest)) =
      (MARKER_o :: MARKER_FF ::
        (pre.map fun p =>
          MARKER_a :: 2 :: ((encodeValue p.1).1 ++ (encodeValue p.2).1)).flatten,
       some .invalidKey) := by
  constructor
  · simp [encodeValue, encodePairs_invalid_at pre k v rest hpre hk, Res.ok,
      Res.seq_none]
  · simp [encodeValue, encodeIPairs_invalid_at pre k v rest hpre hk, Res.ok,
      Res.seq_none, Res.seq_some]

/-- Witness for C9: an object whose single entry has the integer key 3
yields only its header and aborts with the key assertion, in both the sized
and the unsized form. -/
theorem invalid_key_aborts_witness :
    encodeValue (.obj [(.int 3, .null)]) = ([MARKER_o, 1], some .invalidKey) ∧
    encodeValue (.iobj [(.int 3, .null)]) =
      ([MARKER_o, MARKER_FF], some .invalidKey) := by
  have h := invalid_key_aborts [] [] (.int 3) .null (by intro p hp; cases hp)
    (by decide)
  rw [List.nil_append] at h
  refine ⟨?_, ?_⟩
  · rw [h.1]; decide
  · rw [h.2]; decide

/-! ## Dispatch-resolution helpers -/

theorem getLast?_cons_or {α : Type} (a : α) (xs : List α) (z : Option α) :
    ((a :: xs).getLast?).or z = (xs.getLast?).or (some a) := by
  cases xs with
  | nil => rfl
  | cons b xs =>
    rw [List.getLast?_cons_cons]
    have hne : (b :: xs).getLast?.isSome := by
      rw [List.getLast?_isSome]
      simp
    rcases hy : (b :: xs).getLast? with _ | y
    · rw [hy] at hne; cases hne
    · rfl

/-- The overwrite loop of `get_handler` computes the LAST registered
category that `isinstance`-matches (the initial accumulator is only kept
when no category matches). -/
theorem resolveLoop_eq_getLast (inst : PyType → Bool)
    (l : List (PyType × Handler)) (acc : Option Handler) :
    resolveLoop inst l acc =
      (((l.filter fun p => inst p.1).map Prod.snd).getLast?).or acc := by
  induction l generalizing acc with
  | nil => simp [resolveLoop]
  | cons p l ih =>
    by_cases hp : inst p.1
    · rw [resolveLoop, ih, if_pos hp, List.filter_cons_of_pos (by simp [hp]),
        List.map_cons, getLast?_cons_or]
    · rw [resolveLoop, ih, if_neg hp, List.filter_cons_of_neg (by simp [hp])]

/-- C6 (amended): For every value, handler resolution proceeds in this
order: (1) the distinguished Noop sentinel gets the noop encoder; (2) an
exact-type match against the registry is returned if present; (3) otherwise
the LAST capability/subtype (`isinstance`) match found while iterating the
registered categories is returned — when several registered categories
match a value by subtype, the one encountered last in registry iteration
order wins; (4) otherwise the default handler is returned. -/
theorem get_handler_resolution (reg : List (PyType × Handler)) (nv : Bool)
    (tval : PyType) (inst : PyType → Bool) :
    (nv = true → get_handler_gen reg nv tval inst = .noopH) ∧
    (nv = false → ∀ h, lookupExact reg tval = some h →
      get_handler_gen reg nv tval inst = h) ∧
    (nv = false → lookupExact reg tval = none →
      ∀ h, ((reg.filter fun p => inst p.1).map Prod.snd).getLast? = some h →
        get_handler_gen reg nv tval inst = h) ∧
    (nv = false → lookupExact reg tval = none →
      (reg.filter fun p => inst p.1) = [] →
      get_handler_gen reg nv tval inst = .defaultH) := by
  refine ⟨?_, ?_, ?_, ?_⟩
  · intro h; simp [get_handler_gen, h]
  · intro hnv h hlook
    simp [get_handler_gen, hnv, hlook]
  · intro hnv hlook h hlast
    simp [get_handler_gen, hnv, hlook, resolveLoop_eq_getLast, hlast, Option.or]
  · intro hnv hlook hfil
    simp [get_handler_gen, hnv, hlook, resolveLoop_eq_getLast, hfil, Option.or]

/-- Witness for C6 (amended) on a registry with two overlapping categories
and a value matching both: the handler registered last is resolved. -/
theorem get_handler_resolution_witness :
    get_handler_gen [(.intT, .numberH), (.decimalT, .hugeNumberH)] false .strT
      (fun _ => true) = .hugeNumberH :=
  (get_handler_resolution [(.intT, .numberH), (.decimalT, .hugeNumberH)] false .strT
    (fun _ => true)).2.2.1 rfl (by decide) .hugeNumberH (by decide)

/-- Counterexample to C6 as stated: with two overlapping registered
categories both matching the value by subtype and no exact-type match, the
source's loop returns the category encountered LAST in registry iteration
order, not the first — the first-match resolution the claim asserts would
return the other handler. -/
theorem get_handler_not_first_match :
    get_handler_gen [(.tupleT, .arrayH), (.listT, .generatorH)] false .dictT
      (fun _ => true) = .generatorH ∧
    (([((.tupleT : PyType), (.arrayH : Handler)), (.listT, .generatorH)].filter
        fun p => (fun _ => true) p.1).map Prod.snd) = [.arrayH, .generatorH] ∧
    Handler.generatorH ≠ Handler.arrayH := by
  refine ⟨by decide, by decide, by decide⟩

/-- C8: For every value of an unregistered class (no exact-type match and no
`isinstance` match in the handler table) and with no default-handler
override supplied, resolution falls to `encode_default`, and encoding fails
with the `TypeError` whose message names the offending value, yielding no
bytes. -/
theorem unsupported_type_default (rep : String) :
    get_handler (.foreign rep) = .defaultH ∧
    lookupExact registry (typeOf (.foreign rep)) = none ∧
    (registry.filter fun p => isinst (.foreign rep) p.1) = [] ∧
    encodeValue (.foreign rep) =
      ([], some (.unsupported ("Unable to encode " ++ rep ++ " to ubjson"))) :=
  ⟨rfl, rfl, rfl, rfl⟩

/-- C10: Both booleans encode as their single marker byte (`T` / `F`) and
never through the integer path, although `bool` is a Python subclass of
`int` and `int` is a registered handler key: the exact-type lookup for
`bool` wins before any subtype scan. -/
theorem bool_exact_type_dispatch :
    (∀ b, get_handler (.bool b) = .boolH) ∧
    (∀ b, isinst (.bool b) .intT = true) ∧
    ((.intT, Handler.numberH) ∈ registry) ∧
    encodeValue (.bool true) = ([MARKER_T], none) ∧
    encodeValue (.bool false) = ([MARKER_F], none) ∧
    (∀ b, ((encodeValue (.bool b)).1).head? ≠ some MARKER_B) := by
  refine ⟨?_, ?_, by decide, by decide, by decide, ?_⟩ <;> intro b <;> cases b <;> decide

/-- C7: In the unsized-object encoder the source encodes each produced
`(key, value)` pair as a 2-tuple, so each entry is wrapped in a sized-array
frame `a 0x02` — extra bytes stand between the `o 0xFF` header and the key's
encoding, contradicting the claim that each entry is the key's encoding
immediately followed by the value's encoding with nothing around them.  The
class docstring maps `dict.iteritems()` to a plain unsized object, whose
entries a decoder expects as bare key/value encodings, so the tuple wrap is
a slip in the code. -/
theorem iterated_dict_wraps_pairs :
    encodeValue (.iobj [(.str "a", .int 1)]) =
      ([MARKER_o, MARKER_FF, MARKER_a, 2, MARKER_s, 1, 0x61, MARKER_B, 1, MARKER_E],
       none) ∧
    encodeValue (.iobj [(.str "a", .int 1)]) ≠
      ([MARKER_o, MARKER_FF, MARKER_s, 1, 0x61, MARKER_B, 1, MARKER_E], none) := by
  refine ⟨by decide, by decide⟩

end UBJ
